import Mathlib

/-!
Verification of the wealth_pulse ledger parser and transaction-balancing
engine (a Rust program) against its natural-language specification.

The Rust sources are shallowly embedded here:

* `src/core/symbol.rs`, `src/core/amount.rs`, `src/core/posting.rs`,
  `src/core/header.rs`: the value types (`Symbol`, `RenderOptions`,
  `Amount`, `AmountSource`, `Posting`, `Header`).
* `src/parser/ast.rs`: `RawPosting`, `RawTransaction`, the balance /
  inference engine `ensure_balanced`, the lowering `into_postings`, and
  `build_account_lineage`.
* `src/parser/parse.rs`: the combine-based parsers (whitespace, dates,
  quantities, symbols, amounts, postings, transactions, whole ledgers),
  embedded with Parsec-style consumed/empty semantics, which is what the
  combine 2.x library implements (`or` only tries its second alternative
  when the first failed without consuming input; `try` converts a
  consumed failure into an empty one).
* `src/parser/chomp.rs`: the chomp-based parsers (these always backtrack
  on alternation), embedded with plain backtracking semantics.

Machine-level choices:

* `decimal::d128` (IEEE 754 decimal128, the decNumber decQuad type) is
  embedded as `D128`: either a finite decimal `Dec` — an integer
  coefficient `c` and exponent `q`, value `c * 10 ^ q` — or `D128.nan`,
  the quiet NaN that `d128::from_str` produces for a syntactically
  invalid decimal string.  Every arithmetic result (addition at the
  ideal exponent, multiplication, string conversion) is rounded to
  decimal128's 34 significant digits with round-half-even, exactly as
  decQuad rounds — so `1e36 + 1 = 1e36` here as in the program.  The
  IEEE exponent-range limits (overflow to ±infinity beyond roughly
  `10^6145`, subnormals below `10^-6176`) are out of reach of every
  ledger quantity and every claim and are not modelled.  Comparisons
  mirror d128: NaN compares unequal to everything, and zero is zero at
  any exponent.
* Rust panics (`unwrap`/`expect`/`panic!` and the `chrono` constructor
  `Local.ymd`, which panics on out-of-range dates) are embedded as a
  distinguished non-value result (`none`, `.panicked`), never as a parse
  failure.
* `HashMap<String, Amount>` together with Rust's `Entry` API is embedded
  as an association list in insertion order; the program only relies on
  per-key lookup/update, the key set, and access to the sole element of a
  singleton map, all of which the association list models exactly.
-/

set_option linter.unusedVariables false
set_option linter.unnecessarySeqFocus false

namespace WealthPulse

/-! ## Decimal128 arithmetic: the embedding of `decimal::d128` -/

/-- A finite `decimal::d128` value: an integer coefficient and a power-of-ten
exponent, value `c * 10 ^ q` (the decQuad coefficient/exponent form). -/
structure Dec where
  c : Int
  q : Int
deriving DecidableEq, Repr

/-- A `decimal::d128` value: a finite decimal, or the quiet NaN produced by
`d128::from_str` on a syntactically invalid string. -/
inductive D128 where
  | num (d : Dec)
  | nan
deriving DecidableEq, Repr

/-- Number of decimal digits of a natural number (`0` has one digit).
Fuel-bounded division so that it computes inside the kernel; the fuel
`n + 1` always suffices. -/
def digitCountAux : Nat → Nat → Nat
  | 0, _ => 0
  | fuel + 1, n => if n < 10 then 1 else digitCountAux fuel (n / 10) + 1

/-- Number of decimal digits of a natural number. -/
def digitCount (n : Nat) : Nat := digitCountAux (n + 1) n

/-- Division of `n` by `d > 0`, rounded to the nearest integer with ties to
even — decQuad's default `ROUND_HALF_EVEN`. -/
def roundHalfEven (n d : Nat) : Nat :=
  let q := n / d
  let r := n % d
  if d < 2 * r then q + 1
  else if 2 * r < d then q
  else if q % 2 = 0 then q else q + 1

/-- decimal128 precision: 34 significant digits. -/
def decPrecision : Nat := 34

/-- Round a coefficient/exponent pair to at most 34 significant digits
(round-half-even), as decQuad rounds every arithmetic result and string
conversion.  A carry out of the rounding (`999...9 → 10^34`) is shifted
once more.  The IEEE exponent-range limits (overflow to ±infinity, the
subnormal range) are out of reach of any ledger quantity and of every
claim, and are not modelled. -/
def Dec.round (c : Int) (q : Int) : Dec :=
  let n := c.natAbs
  if digitCount n ≤ decPrecision then ⟨c, q⟩
  else
    let k := digitCount n - decPrecision
    let n' := roundHalfEven n (10 ^ k)
    let sign : Int := if c < 0 then -1 else 1
    if digitCount n' ≤ decPrecision then ⟨sign * n', q + k⟩
    else ⟨sign * (n' / 10), q + k + 1⟩

/-- decQuad addition: align the coefficients at the ideal exponent
(the smaller of the two), add exactly, then round to 34 significant
digits. -/
def Dec.add (a b : Dec) : Dec :=
  let qr := min a.q b.q
  Dec.round
    (a.c * (10 : Int) ^ (a.q - qr).toNat + b.c * (10 : Int) ^ (b.q - qr).toNat) qr

/-- decQuad multiplication: exact product of the coefficients, rounded to 34
significant digits. -/
def Dec.mul (a b : Dec) : Dec := Dec.round (a.c * b.c) (a.q + b.q)

/-- Is this decimal the number zero (at any exponent)? -/
def Dec.isZero (a : Dec) : Bool := a.c == 0

/-- The decimal literal `d128!(0)`. -/
def Dec.zero : Dec := ⟨0, 0⟩

/-- The decimal literal `d128!(-1)`. -/
def Dec.negOne : Dec := ⟨-1, 0⟩

/-- d128 addition: NaN absorbs. -/
def D128.add : D128 → D128 → D128
  | .num a, .num b => .num (a.add b)
  | _, _ => .nan

/-- d128 multiplication: NaN absorbs. -/
def D128.mul : D128 → D128 → D128
  | .num a, .num b => .num (a.mul b)
  | _, _ => .nan

/-- The d128 comparison `q == d128!(0)`: NaN compares unequal to zero. -/
def D128.eqZero : D128 → Bool
  | .num a => a.isZero
  | .nan => false

/-- Is this d128 value a (finite) number at all? -/
def D128.isNum : D128 → Bool
  | .num _ => true
  | .nan => false

/-! ### The idealization the original claims C1/C2 assert

The frozen claims C1 and C2 speak of the *exact-decimal* per-symbol sums
and their exact negation.  The program computes with decimal128, which
rounds (see `Dec.add`); the two notions agree while every intermediate sum
stays within 34 significant digits, and disagree beyond — the
counterexamples to C1 and C2 live exactly there.  These definitions state
the claims' idealized notion so that it can be compared with what the
program computes; they are used only in those claims' counterexamples. -/

/-- Exact (unrounded, unbounded-precision) decimal addition — the
idealization the original claims' "exact-decimal sum" refers to. -/
def Dec.addExact (a b : Dec) : Dec :=
  let qr := min a.q b.q
  ⟨a.c * (10 : Int) ^ (a.q - qr).toNat + b.c * (10 : Int) ^ (b.q - qr).toNat, qr⟩

/-- Exact decimal negation — the "exact negation" of the original claim C2. -/
def Dec.neg (a : Dec) : Dec := ⟨-a.c, a.q⟩

/-- Numeric (value) equality of two decimals, `1.0 = 1.00`. -/
def Dec.eqv (a b : Dec) : Bool :=
  let qr := min a.q b.q
  a.c * (10 : Int) ^ (a.q - qr).toNat == b.c * (10 : Int) ^ (b.q - qr).toNat

/-! ## Core value types (`src/core`) -/

/-- `QuoteOption` from `src/core/symbol.rs`. -/
inductive QuoteOption where
  | Quoted
  | Unquoted
deriving DecidableEq, Repr

/-- `Symbol` from `src/core/symbol.rs`: a commodity designator. -/
structure Symbol where
  value : String
  quote_option : QuoteOption
deriving DecidableEq, Repr

/-- `Symbol::new`. -/
def Symbol.new (value : String) (quote_option : QuoteOption) : Symbol :=
  ⟨value, quote_option⟩

/-- `SymbolPosition` from `src/core/amount.rs`. -/
inductive SymbolPosition where
  | Left
  | Right
deriving DecidableEq, Repr

/-- `Spacing` from `src/core/amount.rs`. -/
inductive Spacing where
  | Space
  | NoSpace
deriving DecidableEq, Repr

/-- `RenderOptions` from `src/core/amount.rs`. -/
structure RenderOptions where
  symbol_position : SymbolPosition
  spacing : Spacing
deriving DecidableEq, Repr

/-- `RenderOptions::new`. -/
def RenderOptions.new (position : SymbolPosition) (spacing : Spacing) : RenderOptions :=
  ⟨position, spacing⟩

/-- `Amount` from `src/core/amount.rs`. -/
structure Amount where
  quantity : D128
  symbol : Symbol
  render_options : RenderOptions
deriving DecidableEq, Repr

/-- `Amount::new`. -/
def Amount.new (quantity : D128) (symbol : Symbol) (render_opts : RenderOptions) : Amount :=
  ⟨quantity, symbol, render_opts⟩

/-- `AmountSource` from `src/core/posting.rs`. -/
inductive AmountSource where
  | Provided
  | Inferred
deriving DecidableEq, Repr

/-- A calendar date as produced by `chrono`'s `Local.ymd` (the time zone
plays no role in any property considered here). -/
structure LDate where
  y : Int
  m : Nat
  d : Nat
deriving DecidableEq, Repr

/-- `Status` from `src/core/header.rs`. -/
inductive Status where
  | Cleared
  | Uncleared
deriving DecidableEq, Repr

/-- `Header` from `src/core/header.rs`. -/
structure Header where
  date : LDate
  status : Status
  code : Option String
  payee : String
  comment : Option String
deriving DecidableEq, Repr

/-- `Header::new`. -/
def Header.new (date : LDate) (status : Status) (code : Option String)
    (payee : String) (comment : Option String) : Header :=
  ⟨date, status, code, payee, comment⟩

/-- Rust `Vec::join(":")` on a list of strings, as used by
`RawPosting::new` (`sub_accounts.join(":")`) and by the specification's
"joined with ':'" phrasing. -/
def joinColon : List String → String
  | [] => ""
  | [s] => s
  | s :: rest => s ++ ":" ++ joinColon rest

/-- `RawPosting` from `src/parser/ast.rs`. -/
structure RawPosting where
  full_account : String
  sub_accounts : List String
  amount : Option Amount
  amount_source : AmountSource
  comment : Option String
deriving DecidableEq, Repr

/-- `RawPosting::new` from `src/parser/ast.rs`: derives `full_account` by
joining the sub-accounts with `:`. -/
def RawPosting.new (sub_accounts : List String) (amount : Option Amount)
    (amount_source : AmountSource) (comment : Option String) : RawPosting :=
  ⟨joinColon sub_accounts, sub_accounts, amount, amount_source, comment⟩

/-- `Posting` from `src/core/posting.rs`.  The `Rc<Header>` shared handle is
embedded by value: every posting of a transaction stores the same header. -/
structure Posting where
  header : Header
  account : String
  account_lineage : List String
  amount : Amount
  amount_source : AmountSource
  comment : Option String
deriving DecidableEq, Repr

/-- `Posting::new` as called from `src/parser/ast.rs` (the account lineage is
computed by the caller and passed in). -/
def Posting.new (header : Header) (account : String) (account_lineage : List String)
    (amount : Amount) (amount_source : AmountSource) (comment : Option String) : Posting :=
  ⟨header, account, account_lineage, amount, amount_source, comment⟩

/-- `RawTransaction` from `src/parser/ast.rs`. -/
structure RawTransaction where
  header : Header
  postings : List RawPosting
deriving DecidableEq, Repr

/-- `Price` from `src/core/price.rs`. -/
structure Price where
  date : LDate
  symbol : Symbol
  amount : Amount
deriving DecidableEq, Repr

/-- `Price::new`. -/
def Price.new (date : LDate) (symbol : Symbol) (amount : Amount) : Price :=
  ⟨date, symbol, amount⟩

/-- `ParseTree` from `src/parser/ast.rs`. -/
inductive ParseTree where
  | Price (p : Price)
  | Transaction (t : RawTransaction)
deriving DecidableEq, Repr

/-! ## The balance / inference engine (`src/parser/ast.rs`) -/

/-- `RawTransactionBalanceStatus` from `src/parser/ast.rs`.  The unbalanced
map is carried as an association list in insertion order. -/
inductive RawTransactionBalanceStatus where
  | Balanced (postings : List RawPosting)
  | MultipleAmountsMissing (n : Nat)
  | Unbalanced (remaining : List (String × Amount))
deriving DecidableEq, Repr

/-- Lookup in the association-list embedding of `HashMap<String, Amount>`. -/
def mapLookup : List (String × Amount) → String → Option Amount
  | [], _ => none
  | (k₀, v) :: rest, k => if k₀ = k then some v else mapLookup rest k

/-- One step of the accumulation loop of `ensure_balanced`: the
`balance.entry(amount.symbol.value.clone())` match.  An occupied entry gets
its quantity increased (`value.quantity += amount.quantity`, the stored
symbol and render options are untouched); a vacant entry is seeded with a
clone of the whole amount. -/
def updateEntry : List (String × Amount) → Amount → List (String × Amount)
  | [], a => [(a.symbol.value, a)]
  | (k₀, v) :: rest, a =>
    if k₀ = a.symbol.value then
      (k₀, Amount.new (v.quantity.add a.quantity) v.symbol v.render_options) :: rest
    else
      (k₀, v) :: updateEntry rest a

/-- The mutable state of the scan loop in `ensure_balanced`: the balance
map, `num_missing_amounts`, and `inferred_posting_index`. -/
structure ScanState where
  balance : List (String × Amount)
  num_missing : Nat
  inferred_index : Nat
deriving DecidableEq, Repr

/-- The scan loop of `ensure_balanced`:
`for (index, posting) in postings.iter().enumerate()`. -/
def scanPostings : List RawPosting → Nat → ScanState → ScanState
  | [], _, s => s
  | p :: rest, index, s =>
    match p.amount with
    | some a => scanPostings rest (index + 1) { s with balance := updateEntry s.balance a }
    | none =>
      scanPostings rest (index + 1)
        { s with num_missing := s.num_missing + 1, inferred_index := index }

/-- The initial scan state (empty map, zero counters). -/
def scanInit : ScanState := ⟨[], 0, 0⟩

/-- The balance map after the scan loop of `ensure_balanced`. -/
def balanceOf (postings : List RawPosting) : List (String × Amount) :=
  (scanPostings postings 0 scanInit).balance

/-- `num_missing_amounts` after the scan loop of `ensure_balanced`. -/
def missingOf (postings : List RawPosting) : Nat :=
  (scanPostings postings 0 scanInit).num_missing

/-- `inferred_posting_index` after the scan loop of `ensure_balanced`. -/
def inferredIndexOf (postings : List RawPosting) : Nat :=
  (scanPostings postings 0 scanInit).inferred_index

/-- `unbalanced_symbols` in `ensure_balanced`: the balance map filtered to
entries whose quantity is not exactly zero
(`amount.quantity != d128!(0)`; a NaN quantity also compares unequal). -/
def unbalancedOf (postings : List RawPosting) : List (String × Amount) :=
  (balanceOf postings).filter (fun kv => !kv.2.quantity.eqZero)

/-- The posting-rebuilding loop of the inference branch of
`ensure_balanced` (`for (index, posting) in postings.into_iter().enumerate()`):
the posting at `target` is replaced by a fresh `RawPosting` carrying the
negated remaining balance with source `Inferred`; all others are moved
through unchanged. -/
def inferAt : List RawPosting → Nat → Nat → Amount → List RawPosting
  | [], _, _, _ => []
  | p :: rest, index, target, remaining =>
    (if index = target then
      RawPosting.new p.sub_accounts
        (some (Amount.new ((D128.num Dec.negOne).mul remaining.quantity)
          remaining.symbol remaining.render_options))
        AmountSource.Inferred p.comment
    else p) :: inferAt rest (index + 1) target remaining

/-- `ensure_balanced` from `src/parser/ast.rs`: scan the postings
accumulating per-symbol totals, count missing amounts, then classify. -/
def ensure_balanced (postings : List RawPosting) : RawTransactionBalanceStatus :=
  if missingOf postings > 1 then
    .MultipleAmountsMissing (missingOf postings)
  else if missingOf postings = 1 ∧ (unbalancedOf postings).length = 1 then
    match unbalancedOf postings with
    | (_, remaining_balance) :: _ =>
      .Balanced (inferAt postings 0 (inferredIndexOf postings) remaining_balance)
    | [] =>
      -- unreachable: the branch condition forces a singleton, so the
      -- source's `.iter().nth(0).unwrap()` cannot fail
      .Unbalanced (unbalancedOf postings)
  else if (unbalancedOf postings).length = 0 then
    .Balanced postings
  else
    .Unbalanced (unbalancedOf postings)

/-- `build_account_lineage` accumulator loop (identical in
`src/parser/ast.rs` and `src/core/posting.rs`): grows the running account
name, inserting `:` only when the name accumulated so far is non-empty, and
records each intermediate name. -/
def lineageGo : List String → String → List String
  | [], _ => []
  | sub :: rest, account =>
    let account' := if account.length = 0 then account ++ sub else account ++ ":" ++ sub
    account' :: lineageGo rest account'

/-- `build_account_lineage` from `src/parser/ast.rs` / `src/core/posting.rs`. -/
def build_account_lineage (sub_accounts : List String) : List String :=
  lineageGo sub_accounts ""

/-- The private `into_postings` from `src/parser/ast.rs`.  `none` embeds the
panic of `p.amount.expect("Encountered unexpected missing amount")`. -/
def into_postings (header : Header) (raw_postings : List RawPosting) : Option (List Posting) :=
  raw_postings.mapM fun p =>
    match p.amount with
    | some a =>
      some (Posting.new header p.full_account (build_account_lineage p.sub_accounts)
        a p.amount_source p.comment)
    | none => none

/-- The observable outcome of `RawTransaction::into_postings`: a vector of
postings, a returned error string, or a panic. -/
inductive IntoPostingsResult where
  | ok (ps : List Posting)
  | error (msg : String)
  | panicked
deriving DecidableEq, Repr

/-- `RawTransaction::into_postings` from `src/parser/ast.rs`. -/
def RawTransaction.into_postings (t : RawTransaction) : IntoPostingsResult :=
  match ensure_balanced t.postings with
  | .Balanced raw_postings =>
    match WealthPulse.into_postings t.header raw_postings with
    | some ps => .ok ps
    | none => .panicked
  | .MultipleAmountsMissing num_missing =>
    .error ("Encountered " ++ toString num_missing ++ " missing amounts")
  | .Unbalanced _ =>
    .error "Encountered unbalanced transaction"

/-! ## Specification-side derived notions

These definitions express what the claims talk about (per-symbol sums,
occurrence of a symbol, the number of missing amounts, first use of a
symbol); the theorems connect them to what the engine computes. -/

/-- The provided amounts of a posting list, in order. -/
def providedAmounts (postings : List RawPosting) : List Amount :=
  postings.filterMap fun p => p.amount

/-- The symbol texts occurring among the provided amounts, in order (with
duplicates). -/
def symbolTexts (postings : List RawPosting) : List String :=
  (providedAmounts postings).map fun a => a.symbol.value

/-- Accumulate, starting from `acc`, the quantities of the amounts whose
symbol text is `k`, left to right — each addition rounded exactly as the
engine's `value.quantity += amount.quantity` rounds it. -/
def sumFrom (acc : D128) (k : String) : List Amount → D128
  | [] => acc
  | a :: rest =>
    if a.symbol.value = k then sumFrom (acc.add a.quantity) k rest
    else sumFrom acc k rest

/-- What the balance map ends up holding for symbol text `k`: the first
occurrence's amount (whose symbol and render options are retained), with
its quantity grown by every later occurrence's quantity in posting order;
`none` when the symbol does not occur. -/
def accEntry (k : String) : List Amount → Option Amount
  | [] => none
  | a :: rest =>
    if a.symbol.value = k then
      some (Amount.new (sumFrom a.quantity k rest) a.symbol a.render_options)
    else accEntry k rest

/-- The d128-accumulated sum, over a transaction's provided amounts, of the
quantities carried by symbol text `k`: the amounts of that symbol added in
posting order, each addition rounded to decimal128's 34 significant digits
as the engine rounds it (zero when the symbol does not occur). -/
def symbolSum (postings : List RawPosting) (k : String) : D128 :=
  match accEntry k (providedAmounts postings) with
  | some a => a.quantity
  | none => D128.num Dec.zero

/-- The first provided amount using symbol text `k`. -/
def firstAmount (postings : List RawPosting) (k : String) : Option Amount :=
  (providedAmounts postings).find? fun a => a.symbol.value == k

/-- How many postings have no amount. -/
def numMissing (postings : List RawPosting) : Nat :=
  (postings.filter fun p => p.amount.isNone).length

/-- The exact-decimal (unrounded) sum of the quantities carried by symbol
text `k` — the idealized notion the original claim C1/C2 wording refers to
(see `Dec.addExact`); NaN quantities, which cannot arise in the claims'
counterexamples, are skipped. -/
def exactSymbolSum (postings : List RawPosting) (k : String) : Dec :=
  ((providedAmounts postings).filter fun a => a.symbol.value == k).foldl
    (fun acc a =>
      match a.quantity with
      | .num d => acc.addExact d
      | .nan => acc) Dec.zero

/-! ## Lemmas about the association-list embedding of the balance map -/

/-- The key list of a balance map. -/
def keys (m : List (String × Amount)) : List String := m.map Prod.fst

theorem mapLookup_updateEntry_occupied (m : List (String × Amount)) (a v : Amount)
    (h : mapLookup m a.symbol.value = some v) :
    mapLookup (updateEntry m a) a.symbol.value =
      some (Amount.new (v.quantity.add a.quantity) v.symbol v.render_options) := by
  induction m with
  | nil => simp [mapLookup] at h
  | cons kv rest ih =>
    obtain ⟨k₀, v₀⟩ := kv
    by_cases h₀ : k₀ = a.symbol.value
    · simp [mapLookup, h₀] at h
      simp [updateEntry, h₀, mapLookup, h]
    · simp [mapLookup, h₀] at h
      simp [updateEntry, h₀, mapLookup, ih h]

theorem mapLookup_updateEntry_vacant (m : List (String × Amount)) (a : Amount)
    (h : mapLookup m a.symbol.value = none) :
    mapLookup (updateEntry m a) a.symbol.value = some a := by
  induction m with
  | nil => simp [updateEntry, mapLookup]
  | cons kv rest ih =>
    obtain ⟨k₀, v₀⟩ := kv
    by_cases h₀ : k₀ = a.symbol.value
    · simp [mapLookup, h₀] at h
    · simp [mapLookup, h₀] at h
      simp [updateEntry, h₀, mapLookup, ih h]

theorem mapLookup_updateEntry_other (m : List (String × Amount)) (a : Amount) (k : String)
    (h : k ≠ a.symbol.value) :
    mapLookup (updateEntry m a) k = mapLookup m k := by
  have h' : ¬a.symbol.value = k := fun hh => h hh.symm
  induction m with
  | nil => simp [updateEntry, mapLookup, h']
  | cons kv rest ih =>
    obtain ⟨k₀, v₀⟩ := kv
    by_cases h₀ : k₀ = a.symbol.value
    · simp [updateEntry, h₀, mapLookup, h']
    · by_cases hk : k₀ = k
      · simp [updateEntry, h₀, mapLookup, hk, h', h]
      · simp [updateEntry, h₀, mapLookup, hk, h', h, ih]

theorem keys_updateEntry (m : List (String × Amount)) (a : Amount) :
    keys (updateEntry m a) =
      if a.symbol.value ∈ keys m then keys m else keys m ++ [a.symbol.value] := by
  induction m with
  | nil => simp [updateEntry, keys]
  | cons kv rest ih =>
    obtain ⟨k₀, v₀⟩ := kv
    by_cases h₀ : k₀ = a.symbol.value
    · simp [updateEntry, keys, h₀]
    · have h₀' : ¬a.symbol.value = k₀ := fun hh => h₀ hh.symm
      by_cases hm : a.symbol.value ∈ keys rest
      · simp only [updateEntry, if_neg h₀, keys, List.map_cons] at *
        simp [hm, h₀', ih]
      · simp only [updateEntry, if_neg h₀, keys, List.map_cons] at *
        simp [hm, h₀', ih]

theorem mem_keys_updateEntry (m : List (String × Amount)) (a : Amount) (k : String) :
    k ∈ keys (updateEntry m a) ↔ k ∈ keys m ∨ k = a.symbol.value := by
  rw [keys_updateEntry]
  by_cases hm : a.symbol.value ∈ keys m
  · simp only [if_pos hm]
    constructor
    · exact fun h => Or.inl h
    · rintro (h | rfl)
      · exact h
      · exact hm
  · simp [if_neg hm]

theorem keys_updateEntry_nodup (m : List (String × Amount)) (a : Amount)
    (h : (keys m).Nodup) : (keys (updateEntry m a)).Nodup := by
  rw [keys_updateEntry]
  by_cases hm : a.symbol.value ∈ keys m
  · simpa [if_pos hm]
  · simp only [if_neg hm, List.nodup_append]
    exact ⟨h, List.nodup_singleton _, by simpa [List.disjoint_right]⟩

theorem mapLookup_some_mem (m : List (String × Amount)) (k : String) (v : Amount)
    (h : mapLookup m k = some v) : (k, v) ∈ m := by
  induction m with
  | nil => simp [mapLookup] at h
  | cons kv rest ih =>
    obtain ⟨k₀, v₀⟩ := kv
    by_cases h₀ : k₀ = k
    · simp [mapLookup, h₀] at h
      simp [h₀, h]
    · simp [mapLookup, h₀] at h
      simp [ih h]

theorem mem_keys_of_mem {m : List (String × Amount)} {k : String} {v : Amount}
    (h : (k, v) ∈ m) : k ∈ keys m :=
  List.mem_map_of_mem Prod.fst h

theorem mem_mapLookup_of_nodup (m : List (String × Amount)) (k : String) (v : Amount)
    (hnd : (keys m).Nodup) (h : (k, v) ∈ m) : mapLookup m k = some v := by
  induction m with
  | nil => simp at h
  | cons kv rest ih =>
    obtain ⟨k₀, v₀⟩ := kv
    simp only [keys, List.map_cons, List.nodup_cons] at hnd
    rcases List.mem_cons.mp h with h' | h'
    · simp only [Prod.mk.injEq] at h'
      obtain ⟨hk, hv⟩ := h'
      simp [mapLookup, hk, hv]
    · by_cases h₀ : k₀ = k
      · exact absurd (h₀ ▸ mem_keys_of_mem h') hnd.1
      · simpa [mapLookup, h₀] using ih hnd.2 h'

/-! ## The accumulation loop, characterized -/

/-- Folding a list of amounts through `updateEntry`: the pure shape of the
provided-amount half of the scan loop. -/
def accumulate (m : List (String × Amount)) : List Amount → List (String × Amount)
  | [] => m
  | a :: rest => accumulate (updateEntry m a) rest

theorem accumulate_lookup_occupied (as : List Amount) :
    ∀ (m : List (String × Amount)) (k : String) (v : Amount),
      mapLookup m k = some v →
      mapLookup (accumulate m as) k =
        some (Amount.new (sumFrom v.quantity k as) v.symbol v.render_options) := by
  induction as with
  | nil =>
    intro m k v h
    simp only [accumulate, h, sumFrom]
    rfl
  | cons a rest ih =>
    intro m k v h
    by_cases hk : a.symbol.value = k
    · subst hk
      have h₁ := mapLookup_updateEntry_occupied m a v h
      have h₂ := ih (updateEntry m a) a.symbol.value _ h₁
      simp only [accumulate, h₂, sumFrom, if_pos rfl]
      simp [Amount.new]
    · have h₁ : mapLookup (updateEntry m a) k = some v := by
        rw [mapLookup_updateEntry_other m a k (fun hh => hk hh.symm)]; exact h
      simp only [accumulate, ih (updateEntry m a) k v h₁, sumFrom, if_neg hk]

theorem accumulate_lookup_vacant (as : List Amount) :
    ∀ (m : List (String × Amount)) (k : String),
      mapLookup m k = none →
      mapLookup (accumulate m as) k = accEntry k as := by
  induction as with
  | nil => intro m k h; exact h
  | cons a rest ih =>
    intro m k h
    by_cases hk : a.symbol.value = k
    · subst hk
      have h₁ := mapLookup_updateEntry_vacant m a h
      have h₂ := accumulate_lookup_occupied rest (updateEntry m a) a.symbol.value a h₁
      simp only [accumulate, h₂, accEntry]
      simp
    · have h₁ : mapLookup (updateEntry m a) k = none := by
        rw [mapLookup_updateEntry_other m a k (fun hh => hk hh.symm)]; exact h
      simp only [accumulate, ih (updateEntry m a) k h₁, accEntry, if_neg hk]

theorem accEntry_of_find? (k : String) (as : List Amount) (a₀ : Amount)
    (hf : (as.find? fun a => a.symbol.value == k) = some a₀) :
    ∃ qv, accEntry k as = some (Amount.new qv a₀.symbol a₀.render_options) := by
  induction as with
  | nil => simp at hf
  | cons a rest ih =>
    by_cases hk : a.symbol.value = k
    · rw [List.find?_cons_of_pos _ (by simp [hk])] at hf
      injection hf with hf
      subst hf
      exact ⟨sumFrom a.quantity k rest, by simp [accEntry, hk]⟩
    · rw [List.find?_cons_of_neg _ (by simp [hk])] at hf
      obtain ⟨qv, hq⟩ := ih hf
      exact ⟨qv, by simp [accEntry, hk, hq]⟩

theorem accEntry_of_find?_none (k : String) (as : List Amount)
    (hf : (as.find? fun a => a.symbol.value == k) = none) : accEntry k as = none := by
  induction as with
  | nil => rfl
  | cons a rest ih =>
    by_cases hk : a.symbol.value = k
    · rw [List.find?_cons_of_pos _ (by simp [hk])] at hf
      exact absurd hf (by simp)
    · rw [List.find?_cons_of_neg _ (by simp [hk])] at hf
      simp [accEntry, hk, ih hf]

theorem mem_keys_accumulate (as : List Amount) :
    ∀ (m : List (String × Amount)) (k : String),
      k ∈ keys (accumulate m as) ↔ k ∈ keys m ∨ k ∈ as.map fun a => a.symbol.value := by
  induction as with
  | nil => intro m k; simp [accumulate]
  | cons a rest ih =>
    intro m k
    simp only [accumulate, ih (updateEntry m a) k, mem_keys_updateEntry, List.map_cons,
      List.mem_cons]
    tauto

theorem keys_accumulate_nodup (as : List Amount) :
    ∀ (m : List (String × Amount)), (keys m).Nodup → (keys (accumulate m as)).Nodup := by
  induction as with
  | nil => intro m h; simpa [accumulate]
  | cons a rest ih =>
    intro m h
    exact ih (updateEntry m a) (keys_updateEntry_nodup m a h)

/-! ## The scan loop, characterized -/

theorem numMissing_cons_some (p : RawPosting) (rest : List RawPosting) (a : Amount)
    (hp : p.amount = some a) : numMissing (p :: rest) = numMissing rest := by
  simp [numMissing, List.filter_cons, hp]

theorem numMissing_cons_none (p : RawPosting) (rest : List RawPosting)
    (hp : p.amount = none) : numMissing (p :: rest) = numMissing rest + 1 := by
  simp [numMissing, List.filter_cons, hp]

theorem scan_balance (ps : List RawPosting) :
    ∀ (i : Nat) (s : ScanState),
      (scanPostings ps i s).balance = accumulate s.balance (providedAmounts ps) := by
  induction ps with
  | nil => intro i s; rfl
  | cons p rest ih =>
    intro i s
    cases hp : p.amount with
    | some a => simp [scanPostings, hp, providedAmounts, List.filterMap_cons, ih, accumulate]
    | none => simp [scanPostings, hp, providedAmounts, List.filterMap_cons, ih, accumulate]

theorem scan_missing (ps : List RawPosting) :
    ∀ (i : Nat) (s : ScanState),
      (scanPostings ps i s).num_missing = s.num_missing + numMissing ps := by
  induction ps with
  | nil => intro i s; simp [scanPostings, numMissing]
  | cons p rest ih =>
    intro i s
    cases hp : p.amount with
    | some a =>
      rw [numMissing_cons_some p rest a hp]
      simp only [scanPostings, hp]
      exact ih (i + 1) _
    | none =>
      rw [numMissing_cons_none p rest hp]
      simp only [scanPostings, hp]
      rw [ih (i + 1) _]
      dsimp only
      omega

theorem scan_inferred_no_missing (ps : List RawPosting) :
    numMissing ps = 0 →
      ∀ (i : Nat) (s : ScanState), (scanPostings ps i s).inferred_index = s.inferred_index := by
  induction ps with
  | nil => intro _ i s; rfl
  | cons p rest ih =>
    intro hps i s
    cases hp : p.amount with
    | some a =>
      rw [numMissing_cons_some p rest a hp] at hps
      simp only [scanPostings, hp]
      exact ih hps (i + 1) _
    | none =>
      rw [numMissing_cons_none p rest hp] at hps
      omega

theorem one_le_numMissing (ps : List RawPosting) (j : Nat) (pj : RawPosting)
    (hj : ps[j]? = some pj) (hja : pj.amount = none) : 1 ≤ numMissing ps := by
  have hmem : pj ∈ ps := by
    have := List.getElem?_eq_some.mp hj
    obtain ⟨hlt, hget⟩ := this
    exact hget ▸ List.getElem_mem hlt
  have hmem' : pj ∈ ps.filter fun p => p.amount.isNone :=
    List.mem_filter.mpr ⟨hmem, by simp [hja]⟩
  have := List.length_pos_of_mem hmem'
  simpa [numMissing] using this

theorem scan_inferred_unique (ps : List RawPosting) :
    ∀ (i : Nat) (pi : RawPosting), ps[i]? = some pi → pi.amount = none →
      numMissing ps = 1 →
      ∀ (i0 : Nat) (s : ScanState), (scanPostings ps i0 s).inferred_index = i0 + i := by
  induction ps with
  | nil => intro i pi h; simp at h
  | cons p rest ih =>
    intro i pi hi hia hm i0 s
    cases i with
    | zero =>
      simp only [List.getElem?_cons_zero, Option.some.injEq] at hi
      subst hi
      rw [numMissing_cons_none p rest hia] at hm
      simp only [scanPostings, hia]
      rw [scan_inferred_no_missing rest (by omega) (i0 + 1) _]
      dsimp only
      omega
    | succ j =>
      simp only [List.getElem?_cons_succ] at hi
      cases hp : p.amount with
      | some a =>
        rw [numMissing_cons_some p rest a hp] at hm
        simp only [scanPostings, hp]
        rw [ih j pi hi hia hm (i0 + 1) _]
        omega
      | none =>
        rw [numMissing_cons_none p rest hp] at hm
        have := one_le_numMissing rest j pi hi hia
        omega

/-! ## The balance map after the scan, characterized -/

theorem missingOf_eq (ps : List RawPosting) : missingOf ps = numMissing ps := by
  rw [missingOf, scan_missing]
  simp [scanInit]

theorem balanceOf_eq (ps : List RawPosting) :
    balanceOf ps = accumulate [] (providedAmounts ps) :=
  scan_balance ps 0 scanInit

theorem balanceOf_keys_nodup (ps : List RawPosting) : (keys (balanceOf ps)).Nodup := by
  rw [balanceOf_eq]
  exact keys_accumulate_nodup _ _ (by simp [keys])

theorem firstAmount_isSome (ps : List RawPosting) (k : String) (hk : k ∈ symbolTexts ps) :
    ∃ a₀, firstAmount ps k = some a₀ := by
  rw [symbolTexts, List.mem_map] at hk
  obtain ⟨a, ha, hak⟩ := hk
  have : (firstAmount ps k).isSome := by
    rw [firstAmount, List.find?_isSome]
    exact ⟨a, ha, by simp [hak]⟩
  exact Option.isSome_iff_exists.mp this

theorem firstAmount_mem_symbolTexts (ps : List RawPosting) (k : String) (a₀ : Amount)
    (h : firstAmount ps k = some a₀) : k ∈ symbolTexts ps := by
  have hmem := List.mem_of_find?_eq_some h
  have hpred := List.find?_some h
  simp only [beq_iff_eq] at hpred
  rw [symbolTexts, List.mem_map]
  exact ⟨a₀, hmem, hpred⟩

theorem mapLookup_balanceOf (ps : List RawPosting) (k : String) (a₀ : Amount)
    (h : firstAmount ps k = some a₀) :
    mapLookup (balanceOf ps) k =
      some (Amount.new (symbolSum ps k) a₀.symbol a₀.render_options) := by
  rw [balanceOf_eq, accumulate_lookup_vacant (providedAmounts ps) [] k rfl]
  obtain ⟨qv, hq⟩ := accEntry_of_find? k (providedAmounts ps) a₀ h
  rw [hq]
  simp [symbolSum, hq, Amount.new]

theorem mapLookup_balanceOf_none (ps : List RawPosting) (k : String)
    (h : firstAmount ps k = none) : mapLookup (balanceOf ps) k = none := by
  rw [balanceOf_eq, accumulate_lookup_vacant (providedAmounts ps) [] k rfl]
  exact accEntry_of_find?_none _ _ h

theorem mem_balanceOf_iff (ps : List RawPosting) (k : String) (v : Amount) :
    (k, v) ∈ balanceOf ps ↔
      ∃ a₀, firstAmount ps k = some a₀ ∧
        v = Amount.new (symbolSum ps k) a₀.symbol a₀.render_options := by
  constructor
  · intro hmem
    have hl := mem_mapLookup_of_nodup _ _ _ (balanceOf_keys_nodup ps) hmem
    cases hf : firstAmount ps k with
    | none =>
      rw [mapLookup_balanceOf_none ps k hf] at hl
      exact absurd hl (by simp)
    | some a₀ =>
      rw [mapLookup_balanceOf ps k a₀ hf] at hl
      refine ⟨a₀, rfl, ?_⟩
      injection hl with hl
      exact hl.symm
  · rintro ⟨a₀, hf, rfl⟩
    exact mapLookup_some_mem _ _ _ (mapLookup_balanceOf ps k a₀ hf)

theorem unbalancedOf_eq_nil_iff (ps : List RawPosting) :
    unbalancedOf ps = [] ↔ ∀ k ∈ symbolTexts ps, (symbolSum ps k).eqZero = true := by
  rw [unbalancedOf, List.filter_eq_nil]
  constructor
  · intro h k hk
    obtain ⟨a₀, hf⟩ := firstAmount_isSome ps k hk
    have hmem : (k, Amount.new (symbolSum ps k) a₀.symbol a₀.render_options) ∈ balanceOf ps :=
      (mem_balanceOf_iff ps k _).mpr ⟨a₀, hf, rfl⟩
    have := h _ hmem
    simpa [Amount.new] using this
  · intro h kv hmem
    obtain ⟨k, v⟩ := kv
    obtain ⟨a₀, hf, rfl⟩ := (mem_balanceOf_iff ps k v).mp hmem
    have hk := firstAmount_mem_symbolTexts ps k a₀ hf
    simpa [Amount.new] using h k hk

theorem list_eq_singleton_of_nodupkeys {β : Type} (l : List (String × β)) (a : String × β)
    (hmem : a ∈ l) (hall : ∀ x ∈ l, x = a) (hnd : (l.map Prod.fst).Nodup) : l = [a] := by
  cases l with
  | nil => simp at hmem
  | cons x t =>
    have hx : x = a := hall x (List.mem_cons_self x t)
    subst hx
    cases t with
    | nil => rfl
    | cons y t₂ =>
      have hy : y = x := hall y (List.mem_cons_of_mem _ (List.mem_cons_self y t₂))
      rw [hy] at hnd
      simp at hnd

theorem unbalanced_eq_singleton (ps : List RawPosting) (k : String)
    (hk : k ∈ symbolTexts ps)
    (hnz : (symbolSum ps k).eqZero = false)
    (huniq : ∀ k' ∈ symbolTexts ps, (symbolSum ps k').eqZero = false → k' = k) :
    ∃ a₀, firstAmount ps k = some a₀ ∧
      unbalancedOf ps = [(k, Amount.new (symbolSum ps k) a₀.symbol a₀.render_options)] := by
  obtain ⟨a₀, hf⟩ := firstAmount_isSome ps k hk
  refine ⟨a₀, hf, ?_⟩
  have hmem : (k, Amount.new (symbolSum ps k) a₀.symbol a₀.render_options) ∈ unbalancedOf ps := by
    rw [unbalancedOf, List.mem_filter]
    exact ⟨(mem_balanceOf_iff ps k _).mpr ⟨a₀, hf, rfl⟩, by simp [Amount.new, hnz]⟩
  have hall : ∀ x ∈ unbalancedOf ps,
      x = (k, Amount.new (symbolSum ps k) a₀.symbol a₀.render_options) := by
    rintro ⟨k', v'⟩ hx
    rw [unbalancedOf, List.mem_filter] at hx
    obtain ⟨hmem', hcond⟩ := hx
    obtain ⟨b₀, hfb, rfl⟩ := (mem_balanceOf_iff ps k' v').mp hmem'
    have hk' : k' ∈ symbolTexts ps := firstAmount_mem_symbolTexts ps k' b₀ hfb
    have hz' : (symbolSum ps k').eqZero = false := by simpa [Amount.new] using hcond
    have hkk : k' = k := huniq k' hk' hz'
    subst hkk
    rw [hf] at hfb
    injection hfb with hfb
    rw [hfb]
  have hnd : ((unbalancedOf ps).map Prod.fst).Nodup := by
    have hsub : List.Sublist (unbalancedOf ps) (balanceOf ps) := List.filter_sublist _
    exact (hsub.map Prod.fst).nodup (balanceOf_keys_nodup ps)
  exact list_eq_singleton_of_nodupkeys _ _ hmem hall hnd

/-! ## Branch lemmas for `ensure_balanced` -/

theorem ensure_balanced_no_missing (ps : List RawPosting) (hm0 : missingOf ps = 0) :
    ensure_balanced ps =
      if (unbalancedOf ps).length = 0 then .Balanced ps
      else .Unbalanced (unbalancedOf ps) := by
  unfold ensure_balanced
  rw [hm0]
  norm_num

theorem ensure_balanced_multi (ps : List RawPosting) (hm : missingOf ps > 1) :
    ensure_balanced ps = .MultipleAmountsMissing (missingOf ps) := by
  unfold ensure_balanced
  rw [if_pos hm]

theorem ensure_balanced_infer_branch (ps : List RawPosting) (k : String) (vk : Amount)
    (hm1 : missingOf ps = 1) (hu : unbalancedOf ps = [(k, vk)]) :
    ensure_balanced ps = .Balanced (inferAt ps 0 (inferredIndexOf ps) vk) := by
  unfold ensure_balanced
  rw [hm1, hu]
  norm_num

theorem inferAt_getElem? (l : List RawPosting) (r : Amount) :
    ∀ (i0 t j : Nat),
      (inferAt l i0 t r)[j]? = (l[j]?).map fun p =>
        if i0 + j = t then
          RawPosting.new p.sub_accounts
            (some (Amount.new ((D128.num Dec.negOne).mul r.quantity) r.symbol r.render_options))
            AmountSource.Inferred p.comment
        else p := by
  induction l with
  | nil => intro i0 t j; simp [inferAt]
  | cons p rest ih =>
    intro i0 t j
    cases j with
    | zero => simp [inferAt]
    | succ j' =>
      simp only [inferAt, List.getElem?_cons_succ, ih (i0 + 1) t j']
      simp only [show i0 + 1 + j' = i0 + (j' + 1) from by omega]

/-- Shared core of claims C2 and C10: under the inference-branch conditions
(exactly one missing amount, at index `i`, and exactly one symbol text `k`
with a non-zero accumulated sum), `ensure_balanced` returns `Balanced`
postings in which only the posting at `i` was replaced, by a posting that
keeps its account segments and comment and receives the negated sum with
the first-occurrence symbol and render options, tagged `Inferred`. -/
theorem ensure_balanced_infers (ps : List RawPosting) (i : Nat) (pi : RawPosting) (k : String)
    (h1 : numMissing ps = 1) (h2 : ps[i]? = some pi) (h3 : pi.amount = none)
    (hk : k ∈ symbolTexts ps)
    (hnz : (symbolSum ps k).eqZero = false)
    (huniq : ∀ k' ∈ symbolTexts ps, (symbolSum ps k').eqZero = false → k' = k) :
    ∃ a₀ bs, firstAmount ps k = some a₀ ∧ ensure_balanced ps = .Balanced bs ∧
      (∀ j, j ≠ i → bs[j]? = ps[j]?) ∧
      bs[i]? = some (RawPosting.new pi.sub_accounts
        (some (Amount.new ((D128.num Dec.negOne).mul (symbolSum ps k))
          a₀.symbol a₀.render_options))
        AmountSource.Inferred pi.comment) := by
  obtain ⟨a₀, hf, hu⟩ := unbalanced_eq_singleton ps k hk hnz huniq
  have hm1 : missingOf ps = 1 := by rw [missingOf_eq]; exact h1
  have hidx : inferredIndexOf ps = i := by
    rw [inferredIndexOf]
    rw [scan_inferred_unique ps i pi h2 h3 h1 0 scanInit]
    omega
  have heb := ensure_balanced_infer_branch ps k _ hm1 hu
  rw [hidx] at heb
  refine ⟨a₀, _, hf, heb, ?_, ?_⟩
  · intro j hj
    rw [inferAt_getElem?]
    cases hpj : ps[j]? with
    | none => rfl
    | some pj => simp [Nat.zero_add, hj]
  · rw [inferAt_getElem?, h2]
    simp [Nat.zero_add, Amount.new]

/-! ## Account-lineage lemmas -/

theorem lineageGo_length (l : List String) :
    ∀ acc, (lineageGo l acc).length = l.length := by
  induction l with
  | nil => intro acc; rfl
  | cons s rest ih => intro acc; simp [lineageGo, ih]

theorem append_colon_ne_empty (acc s : String) : acc ++ ":" ++ s ≠ "" := by
  intro h
  have := congrArg String.length h
  simp [String.length_append] at this
  exact absurd this.1.2 (by decide)

theorem ne_empty_of_length_ne_zero {acc : String} (h : acc.length ≠ 0) : acc ≠ "" :=
  fun h2 => h (h2 ▸ rfl)

theorem length_ne_zero_of_ne_empty {acc : String} (h : acc ≠ "") : acc.length ≠ 0 := by
  intro h0
  apply h
  cases acc with
  | mk data =>
    cases data with
    | nil => rfl
    | cons c cs => simp [String.length] at h0

theorem lineageGo_getElem_ne (l : List String) :
    ∀ (acc : String), acc ≠ "" → ∀ j, j < l.length →
      (lineageGo l acc)[j]? = some (acc ++ ":" ++ joinColon (l.take (j + 1))) := by
  induction l with
  | nil => intro acc _ j hj; simp at hj
  | cons s rest ih =>
    intro acc hacc j hj
    have hlen : ¬acc.length = 0 := length_ne_zero_of_ne_empty hacc
    simp only [lineageGo, if_neg hlen]
    cases j with
    | zero =>
      simp [joinColon, List.take]
    | succ j' =>
      have hj' : j' < rest.length := by simpa using hj
      rw [List.getElem?_cons_succ, ih (acc ++ ":" ++ s) (append_colon_ne_empty acc s) j' hj']
      cases rest with
      | nil => simp at hj'
      | cons r t =>
        simp only [List.take, joinColon, Option.some.injEq]
        simp [String.append_assoc]

/-- The first step of `build_account_lineage` on a non-empty path: the
accumulator starts empty, so the first entry is the first segment itself. -/
theorem build_account_lineage_cons (s0 : String) (rest : List String) :
    build_account_lineage (s0 :: rest) = s0 :: lineageGo rest s0 := rfl

/-! ## A Parsec-style parser core: the semantics of the combine 2.x
combinators used by `src/parser/parse.rs`.  `or` tries its second
alternative only when the first failed without consuming input; `try`
converts a consumed failure into an empty one; sequencing propagates the
consumed flag. -/

/-- The result of running a combine parser: success or failure, each
recording whether input was consumed.  `panicked` embeds a Rust panic
raised while building a semantic value (it propagates through every
combinator and is never caught). -/
inductive PResult (α : Type) where
  | ok (consumed : Bool) (value : α) (rest : List Char)
  | err (consumed : Bool)
  | panicked
deriving DecidableEq, Repr

/-- A combine parser over a character stream. -/
def Parser (α : Type) : Type := List Char → PResult α

/-- A parser returning a value without touching the input. -/
def ppure {α : Type} (a : α) : Parser α := fun s => .ok false a s

/-- Sequencing; the consumed flags are or-ed. -/
def pbind {α β : Type} (p : Parser α) (f : α → Parser β) : Parser β := fun s =>
  match p s with
  | .panicked => .panicked
  | .err c => .err c
  | .ok c v rest =>
    match f v rest with
    | .panicked => .panicked
    | .err c' => .err (c || c')
    | .ok c' w rest' => .ok (c || c') w rest'

/-- `p.map(f)`. -/
def pmap {α β : Type} (f : α → β) (p : Parser α) : Parser β :=
  pbind p (fun a => ppure (f a))

/-- combine `p.or(q)`: `q` is tried only when `p` failed without consuming. -/
def por {α : Type} (p q : Parser α) : Parser α := fun s =>
  match p s with
  | .err false => q s
  | r => r

/-- combine `try(p)`: converts a consumed failure into an empty failure. -/
def ptry {α : Type} (p : Parser α) : Parser α := fun s =>
  match p s with
  | .err _ => .err false
  | r => r

/-- `p.skip(q)`: run both, keep `p`'s value. -/
def pskip {α β : Type} (p : Parser α) (q : Parser β) : Parser α :=
  pbind p (fun v => pmap (fun _ => v) q)

/-- `p.with(q)`: run both, keep `q`'s value. -/
def pwith {α β : Type} (p : Parser α) (q : Parser β) : Parser β :=
  pbind p (fun _ => q)

/-- `optional(p)`: `p.map(Some).or(value(None))`. -/
def poptional {α : Type} (p : Parser α) : Parser (Option α) :=
  por (pmap some p) (ppure none)

/-- `satisfy(f)`. -/
def psatisfy (f : Char → Bool) : Parser Char := fun s =>
  match s with
  | [] => .err false
  | c :: rest => if f c then .ok true c rest else .err false

/-- `char(c)`. -/
def pchar (c : Char) : Parser Char := psatisfy (fun x => x == c)

/-- The loop of `many`: iterate `p` while it succeeds consuming input, stop
at the first empty failure, propagate consumed failures.  `fuel` bounds the
iteration count; `pmany` supplies more fuel than the input has characters,
which suffices because every continuing iteration consumes.  An iteration
that succeeds without consuming is embedded as `panicked`: the combine
library would loop forever there, and it is unreachable for this program's
grammar, whose repeated parsers all consume on success. -/
def manyAux {α : Type} (p : Parser α) : Nat → List Char → PResult (List α)
  | 0, _ => .panicked
  | fuel + 1, s =>
    match p s with
    | .panicked => .panicked
    | .err true => .err true
    | .err false => .ok false [] s
    | .ok false _ _ => .panicked
    | .ok true v rest =>
      match manyAux p fuel rest with
      | .panicked => .panicked
      | .err _ => .err true
      | .ok _ vs rest' => .ok true (v :: vs) rest'

/-- `many(p)`. -/
def pmany {α : Type} (p : Parser α) : Parser (List α) := fun s =>
  manyAux p (s.length + 1) s

/-- `many1(p)`. -/
def pmany1 {α : Type} (p : Parser α) : Parser (List α) :=
  pbind p (fun v => pmap (fun vs => v :: vs) (pmany p))

/-- `skip_many(p)`. -/
def pskipMany {α : Type} (p : Parser α) : Parser Unit :=
  pmap (fun _ => ()) (pmany p)

/-- `sep_by1(p, sep)`: `p` followed by any number of `sep`-then-`p`. -/
def psepBy1 {α β : Type} (p : Parser α) (sep : Parser β) : Parser (List α) :=
  pbind p (fun v => pmap (fun vs => v :: vs) (pmany (pwith sep p)))

/-- `between(o, c, p)`. -/
def pbetween {α β γ : Type} (o : Parser α) (c : Parser β) (p : Parser γ) : Parser γ :=
  pskip (pwith o p) c

/-- A `.map` whose closure can panic (an `unwrap`/`expect`, or `Local.ymd`
on an out-of-range date); `none` is the panic. -/
def ppanicMap {α β : Type} (p : Parser α) (f : α → Option β) : Parser β := fun s =>
  match p s with
  | .panicked => .panicked
  | .err c => .err c
  | .ok c v rest =>
    match f v with
    | some w => .ok c w rest
    | none => .panicked

/-! ## The parsers of `src/parser/parse.rs` -/

/-- `whitespace`: one or more spaces or tabs, collected into a string. -/
def whitespaceP : Parser String :=
  pmap (fun cs => String.mk cs) (pmany1 (psatisfy (fun c => c == ' ' || c == '\t')))

/-- `line_ending`: `crlf()` (a `\r` followed by `\n`, yielding `'\n'`) or
`newline()`, the result turned into a string. -/
def line_endingP : Parser String :=
  por (pmap (fun c => String.mk [c]) (pwith (pchar '\r') (pchar '\n')))
      (pmap (fun c => String.mk [c]) (pchar '\n'))

/-- `two_digits_to_u32` (both characters are digits when this is applied). -/
def two_digits_to_u32 (x y : Char) : Nat :=
  (x.toNat - '0'.toNat) * 10 + (y.toNat - '0'.toNat)

/-- `two_digits`. -/
def two_digitsP : Parser Nat :=
  pbind (psatisfy Char.isDigit)
    (fun x => pmap (fun y => two_digits_to_u32 x y) (psatisfy Char.isDigit))

/-- The numeric value of a run of decimal digits. -/
def digitsToNat (cs : List Char) : Nat :=
  cs.foldl (fun acc c => acc * 10 + (c.toNat - '0'.toNat)) 0

/-- `year.parse::<i32>().unwrap()` on the digit run matched by
`many(digit)`: Rust's `parse` fails — and the `unwrap` panics — on an empty
string and on overflow past `i32::MAX`. -/
def parse_i32 (cs : List Char) : Option Int :=
  if cs.isEmpty then none
  else if digitsToNat cs ≤ 2147483647 then some (digitsToNat cs) else none

/-- Gregorian leap year, as chrono computes it. -/
def isLeap (y : Int) : Bool := y % 4 == 0 && (y % 100 != 0 || y % 400 == 0)

/-- Days in a month of the proleptic Gregorian calendar. -/
def daysInMonth (y : Int) (m : Nat) : Nat :=
  match m with
  | 1 => 31
  | 2 => if isLeap y then 29 else 28
  | 3 => 31
  | 4 => 30
  | 5 => 31
  | 6 => 30
  | 7 => 31
  | 8 => 31
  | 9 => 30
  | 10 => 31
  | 11 => 30
  | 12 => 31
  | _ => 0

/-- chrono's `Local.ymd(y, m, d)`: panics (`none`) when the date is invalid
or the year leaves chrono's representable range. -/
def local_ymd (y : Int) (m d : Nat) : Option LDate :=
  if -262144 ≤ y ∧ y ≤ 262143 ∧ 1 ≤ m ∧ m ≤ 12 ∧ 1 ≤ d ∧ d ≤ daysInMonth y m
  then some ⟨y, m, d⟩ else none

/-- `date` from `src/parser/parse.rs`.  Note the year is `many(digit)` — any
run of digits, also none at all (where `year.parse().unwrap()` panics) —
not a fixed four. -/
def dateP : Parser LDate :=
  ppanicMap
    (pbind (pmany (psatisfy Char.isDigit)) (fun ys =>
      pbind (pchar '-') (fun _ =>
        pbind two_digitsP (fun m =>
          pbind (pchar '-') (fun _ =>
            pmap (fun d => (ys, m, d)) two_digitsP)))))
    (fun x =>
      match parse_i32 x.1 with
      | none => none
      | some y => local_ymd y x.2.1 x.2.2)

/-- `qty.replace(",", "")`: every comma is removed. -/
def removeCommas (s : String) : String :=
  String.mk (s.data.filter (fun c => c != ','))

/-- `decimal::d128::from_str`, followed by the source's `.unwrap()`.  By
decNumber semantics a syntactically invalid decimal converts to a quiet NaN
(wrapped in `Ok`, so the unwrap passes it through); a valid simple decimal
— an optional sign, then digits with at most one radix point and at least
one digit — converts with its coefficient rounded to decimal128's 34
significant digits, as `decQuadFromString` rounds. -/
def d128_from_str (s : String) : D128 :=
  let cs := s.data
  let body :=
    match cs with
    | '-' :: rest => rest
    | '+' :: rest => rest
    | _ => cs
  let neg : Bool :=
    match cs with
    | '-' :: _ => true
    | _ => false
  let digits := body.filter (fun c => c != '.')
  if body.count '.' ≤ 1 && !digits.isEmpty && digits.all Char.isDigit then
    let fracLen : Nat := (body.dropWhile (fun c => c != '.')).length - 1
    let mant : Int := digitsToNat digits
    .num (Dec.round (if neg then -mant else mant) (-(fracLen : Int)))
  else
    .nan

/-- `quantity` from `src/parser/parse.rs`: an optional leading `-`, then one
or more of digit/`,`/`.`; the commas are stripped textually and the rest is
handed to `d128::from_str(..).unwrap()`.  The character layer never rejects
a malformed run such as `1.2.3`. -/
def quantityP : Parser D128 :=
  pbind
    (pmap (fun x => match x with | some _ => "-" | none => "") (poptional (pchar '-')))
    (fun sign =>
      pmap
        (fun numbers => d128_from_str (removeCommas (sign ++ String.mk numbers)))
        (pmany1 (psatisfy (fun c => c.isDigit || c == ',' || c == '.'))))

/-- `quoted_symbol`. -/
def quoted_symbolP : Parser Symbol :=
  pbind (pchar '"') (fun _ =>
    pbind (pmany1 (psatisfy (fun c => c != '"' && c != '\r' && c != '\n'))) (fun cs =>
      pmap (fun _ => Symbol.new (String.mk cs) QuoteOption.Quoted) (pchar '"')))

/-- The excluded characters of `unquoted_symbol` in `src/parser/parse.rs`:
the string `-0123456789; "\t\r\n` of the source. -/
def unquotedForbidden : List Char := "-0123456789; \"\t\r\n".data

/-- `unquoted_symbol` from `src/parser/parse.rs`: one or more characters,
each of which differs from every character of the excluded string. -/
def unquoted_symbolP : Parser Symbol :=
  pmap (fun cs => Symbol.new (String.mk cs) QuoteOption.Unquoted)
    (pmany1 (psatisfy (fun c => unquotedForbidden.all (fun s => s != c))))

/-- `symbol`: quoted first, then unquoted. -/
def symbolP : Parser Symbol := por quoted_symbolP unquoted_symbolP

/-- `amount_symbol_then_quantity`. -/
def amount_symbol_then_quantityP : Parser Amount :=
  pbind symbolP (fun sym =>
    pbind (poptional whitespaceP) (fun ws =>
      pmap (fun q =>
        Amount.new q sym
          (RenderOptions.new SymbolPosition.Left
            (match ws with | some _ => Spacing.Space | none => Spacing.NoSpace)))
        quantityP))

/-- `amount_quantity_then_symbol`. -/
def amount_quantity_then_symbolP : Parser Amount :=
  pbind quantityP (fun q =>
    pbind (poptional whitespaceP) (fun ws =>
      pmap (fun sym =>
        Amount.new q sym
          (RenderOptions.new SymbolPosition.Right
            (match ws with | some _ => Spacing.Space | none => Spacing.NoSpace)))
        symbolP))

/-- `amount`: symbol-first ordering tried before quantity-first. -/
def amountP : Parser Amount :=
  por amount_symbol_then_quantityP amount_quantity_then_symbolP

/-- `amount_or_inferred`. -/
def amount_or_inferredP : Parser (AmountSource × Option Amount) :=
  pmap (fun opt =>
    match opt with
    | some _ => (AmountSource.Provided, opt)
    | none => (AmountSource.Inferred, opt))
    (poptional amountP)

/-- `price`. -/
def priceP : Parser Price :=
  pbind (pskip (pchar 'P') whitespaceP) (fun _ =>
    pbind (pskip dateP whitespaceP) (fun d =>
      pbind (pskip symbolP whitespaceP) (fun sym =>
        pmap (fun a => Price.new d sym a) amountP)))

/-- `status`: `*` is cleared, `!` uncleared. -/
def statusP : Parser Status :=
  por (pmap (fun _ => Status.Cleared) (pchar '*'))
      (pmap (fun _ => Status.Uncleared) (pchar '!'))

/-- `code`: a parenthesized run of characters. -/
def codeP : Parser String :=
  pmap (fun cs => String.mk cs)
    (pbetween (pchar '(') (pchar ')')
      (pmany (psatisfy (fun c => c != '\r' && c != '\n' && c != ')'))))

/-- `payee`. -/
def payeeP : Parser String :=
  pmap (fun cs => String.mk cs)
    (pmany1 (psatisfy (fun c => c != ';' && c != '\n' && c != '\r')))

/-- `comment`: `;` then the rest of the line. -/
def commentP : Parser String :=
  pwith (pchar ';')
    (pmap (fun cs => String.mk cs) (pmany (psatisfy (fun c => c != '\r' && c != '\n'))))

/-- `comment_line`. -/
def comment_lineP : Parser String :=
  pskip (pwith (pmany whitespaceP) commentP) line_endingP

/-- `header`. -/
def headerP : Parser Header :=
  pbind (pskip dateP whitespaceP) (fun d =>
    pbind (pskip statusP whitespaceP) (fun st =>
      pbind (poptional (pskip codeP whitespaceP)) (fun code =>
        pbind payeeP (fun payee =>
          pmap (fun comment => Header.new d st code payee comment)
            (poptional commentP)))))

/-- `sub_account`: one or more alphanumeric characters (the Rust predicate
is Unicode-aware `char::is_alphanumeric`; the claims only exercise its
ASCII fragment, which `Char.isAlphanum` matches). -/
def sub_accountP : Parser String :=
  pmap (fun cs => String.mk cs) (pmany1 (psatisfy Char.isAlphanum))

/-- `account`: sub-accounts separated by `:`. -/
def accountP : Parser (List String) := psepBy1 sub_accountP (pchar ':')

/-- `posting`. -/
def postingP : Parser RawPosting :=
  pbind (pskip accountP (poptional whitespaceP)) (fun sub_accounts =>
    pbind (pskip amount_or_inferredP (poptional whitespaceP)) (fun sa =>
      pmap (fun opt_comment => RawPosting.new sub_accounts sa.2 sa.1 opt_comment)
        (poptional commentP)))

/-- `posting_line`: mandatory leading whitespace, a posting, a line ending. -/
def posting_lineP : Parser RawPosting :=
  pskip (pwith (pmany1 whitespaceP) postingP) line_endingP

/-- `transaction`: a header line, then one or more comment lines (discarded)
or posting lines (collected). -/
def transactionP : Parser ParseTree :=
  pbind (pskip headerP line_endingP) (fun h =>
    pmap (fun posts : List (Option RawPosting) =>
      ParseTree.Transaction ⟨h, posts.filterMap id⟩)
      (pmany1 (por (ptry (pmap (fun _ => (none : Option RawPosting)) comment_lineP))
                   (ptry (pmap (fun p => some p) posting_lineP)))))

/-- `skip_comment_or_empty_lines`. -/
def skip_comment_or_empty_linesP : Parser Unit :=
  pskipMany (pskip (pskip (pskipMany whitespaceP) (poptional commentP)) line_endingP)

/-- `ledger`. -/
def ledgerP : Parser (List ParseTree) :=
  pwith skip_comment_or_empty_linesP
    (pmany (pskip (por transactionP (pmap ParseTree.Price priceP))
      skip_comment_or_empty_linesP))

/-- The observable outcome of `parse_ledger`: a parse tree, or process
termination by `panic!`. -/
inductive LedgerOutcome where
  | trees (ts : List ParseTree)
  | panicked
deriving DecidableEq, Repr

/-- `parse_ledger` from `src/parser/parse.rs`, applied to the decoded file
contents (reading the file from disk is I/O glue outside the embedded
core).  The source matches on the parse result and calls `panic!("{}", err)`
in the error case — its own TODO comment says it should return the result
value rather than panic; its `Ok((tree, _))` arm also discards whatever
input the ledger parser left unconsumed.  A panic raised inside the parser
(e.g. by `Local.ymd`) terminates the process as well. -/
def parse_ledger (contents : String) : LedgerOutcome :=
  match ledgerP contents.data with
  | .ok _ tree _ => .trees tree
  | .err _ => .panicked
  | .panicked => .panicked

/-! ## The chomp-based parsers of `src/parser/chomp.rs`

chomp's `or` restores the input before trying its second alternative, so no
consumed/empty distinction is needed; `panicked` again embeds a panic
inside a `ret` body.  The chomp parsers consume bytes; the embedded
predicates act on the characters of the (ASCII) inputs. -/

/-- The result of a chomp parser. -/
inductive CResult (α : Type) where
  | ok (value : α) (rest : List Char)
  | fail
  | panicked
deriving DecidableEq, Repr

/-- A chomp parser. -/
def CParser (α : Type) : Type := List Char → CResult α

/-- chomp sequencing. -/
def cbind {α β : Type} (p : CParser α) (f : α → CParser β) : CParser β := fun s =>
  match p s with
  | .ok v rest => f v rest
  | .fail => .fail
  | .panicked => .panicked

/-- chomp `map`. -/
def cmap {α β : Type} (f : α → β) (p : CParser α) : CParser β := fun s =>
  match p s with
  | .ok v rest => .ok (f v) rest
  | .fail => .fail
  | .panicked => .panicked

/-- chomp `or`: full backtracking. -/
def cor {α : Type} (p q : CParser α) : CParser α := fun s =>
  match p s with
  | .fail => q s
  | r => r

/-- chomp `token`. -/
def ctoken (c : Char) : CParser Char := fun s =>
  match s with
  | x :: rest => if x == c then .ok c rest else .fail
  | [] => .fail

/-- chomp `take_while1`. -/
def ctake_while1 (f : Char → Bool) : CParser (List Char) := fun s =>
  let taken := s.takeWhile f
  if taken.isEmpty then .fail else .ok taken (s.dropWhile f)

/-- chomp `ascii::digit`. -/
def cdigit : CParser Char := fun s =>
  match s with
  | c :: rest => if c.isDigit then .ok c rest else .fail
  | [] => .fail

/-- chomp `count(n, p)`. -/
def ccount {α : Type} (n : Nat) (p : CParser α) : CParser (List α) :=
  match n with
  | 0 => fun s => .ok [] s
  | n + 1 => cbind p (fun v => cmap (fun vs => v :: vs) (ccount n p))

/-- A `ret` whose body can panic (`Local.ymd`). -/
def cpanicRet {α β : Type} (p : CParser α) (f : α → Option β) : CParser β := fun s =>
  match p s with
  | .ok v rest =>
    match f v with
    | some w => .ok w rest
    | none => .panicked
  | .fail => .fail
  | .panicked => .panicked

/-- `is_whitespace_char` from `src/parser/chomp.rs`. -/
def is_whitespace_char (c : Char) : Bool := c == '\t' || c == ' '

/-- `is_digit_char` from `src/parser/chomp.rs`. -/
def is_digit_char (c : Char) : Bool := '0' ≤ c && c ≤ '9'

/-- `is_newline_char` from `src/parser/chomp.rs`, verbatim: the source tests
`c == b'\r' && c == b'\n'` — a conjunction no byte satisfies. -/
def is_newline_char (c : Char) : Bool := c == '\r' && c == '\n'

/-- `is_unquoted_symbol_char` from `src/parser/chomp.rs`. -/
def is_unquoted_symbol_char (c : Char) : Bool :=
  c != '-' && c != ';' && c != '"' && !is_newline_char c
    && !is_digit_char c && !is_whitespace_char c

/-- `unquoted_symbol` from `src/parser/chomp.rs`. -/
def chomp_unquoted_symbol : CParser Symbol :=
  cmap (fun cs => Symbol.new (String.mk cs) QuoteOption.Unquoted)
    (ctake_while1 is_unquoted_symbol_char)

/-- `to_i32` from `src/parser/chomp.rs` (digit bytes only at every use). -/
def to_i32 (cs : List Char) : Int :=
  cs.foldl (fun acc c => acc * 10 + ((c.toNat : Int) - ('0'.toNat : Int))) 0

/-- `to_u32` from `src/parser/chomp.rs`. -/
def to_u32 (cs : List Char) : Nat :=
  cs.foldl (fun acc c => acc * 10 + (c.toNat - '0'.toNat)) 0

/-- `year` from `src/parser/chomp.rs`: exactly four digits. -/
def chomp_year : CParser Int := cmap to_i32 (ccount 4 cdigit)

/-- `month` from `src/parser/chomp.rs`: exactly two digits. -/
def chomp_month : CParser Nat := cmap to_u32 (ccount 2 cdigit)

/-- `day` from `src/parser/chomp.rs`: exactly two digits. -/
def chomp_day : CParser Nat := cmap to_u32 (ccount 2 cdigit)

/-- `date` from `src/parser/chomp.rs`: 4-digit year, `-`, 2-digit month,
`-`, 2-digit day, then `Local.ymd`. -/
def chomp_date : CParser LDate :=
  cpanicRet
    (cbind chomp_year (fun y =>
      cbind (ctoken '-') (fun _ =>
        cbind chomp_month (fun m =>
          cbind (ctoken '-') (fun _ =>
            cmap (fun d => (y, m, d)) chomp_day)))))
    (fun x => local_ymd x.1 x.2.1 x.2.2)

/-! ## Example inputs (the concrete transactions used by the specification) -/

/-- The symbol `$`, unquoted. -/
def exDollar : Symbol := Symbol.new "$" QuoteOption.Unquoted

/-- The quoted symbol `"MUTF2394"`. -/
def exMutf : Symbol := Symbol.new "MUTF2394" QuoteOption.Quoted

/-- Render options of `$23.40` (symbol left, no space). -/
def exRoLeft : RenderOptions := RenderOptions.new SymbolPosition.Left Spacing.NoSpace

/-- Render options of `-15.27 "MUTF2394"` (symbol right, with space). -/
def exRoRight : RenderOptions := RenderOptions.new SymbolPosition.Right Spacing.Space

/-- A provided posting with quantity `mantissa * 10 ^ q`. -/
def exProvided (mantissa : Int) (q : Int) (s : Symbol) (r : RenderOptions) : RawPosting :=
  RawPosting.new [] (some (Amount.new (D128.num ⟨mantissa, q⟩) s r)) AmountSource.Provided none

/-- A posting with no amount. -/
def exMissing : RawPosting := RawPosting.new [] none AmountSource.Inferred none

/-- The spec's balanced example: `[$23.40, $-23.40, "MUTF2394" -15.27, "MUTF2394" 15.27]`. -/
def exPostingsBal : List RawPosting :=
  [exProvided 2340 (-2) exDollar exRoLeft, exProvided (-2340) (-2) exDollar exRoLeft,
   exProvided (-1527) (-2) exMutf exRoRight, exProvided 1527 (-2) exMutf exRoRight]

/-- The spec's inference example: `[$23.40, $-23.40, "MUTF2394" -15.27, <missing>]`. -/
def exPostingsInfer : List RawPosting :=
  [exProvided 2340 (-2) exDollar exRoLeft, exProvided (-2340) (-2) exDollar exRoLeft,
   exProvided (-1527) (-2) exMutf exRoRight, exMissing]

/-- A list of postings that is exactly balanced but probes decimal128's
34-digit precision: `[$1e36, $1, $-1e36, $-1]` (the d128 value `1e36` has
coefficient `10 ^ 33` and exponent `3`, already using 34 significant
digits, so adding `$1` to it rounds the `1` away). -/
def exPostingsPrecision : List RawPosting :=
  [exProvided ((10 : Int) ^ 33) 3 exDollar exRoLeft, exProvided 1 0 exDollar exRoLeft,
   exProvided (-(10 : Int) ^ 33) 3 exDollar exRoLeft, exProvided (-1) 0 exDollar exRoLeft]

/-- A one-missing-posting list probing the same precision limit:
`[$1e36, $1, <missing>]`; the exact sum is `10 ^ 36 + 1`, but the engine's
d128 accumulation rounds it to `1e36`. -/
def exPostingsPrecisionInfer : List RawPosting :=
  [exProvided ((10 : Int) ^ 33) 3 exDollar exRoLeft, exProvided 1 0 exDollar exRoLeft,
   exMissing]

/-- The spec's multiple-missing example: four postings, all missing amounts. -/
def exPostingsAllMissing : List RawPosting :=
  [exMissing, exMissing, exMissing, exMissing]

/-- A sample transaction header. -/
def exHeader : Header := Header.new ⟨2015, 10, 20⟩ Status.Cleared none "Payee" none

/-- A single posting with no amount, under an account. -/
def exSingleMissing : RawPosting :=
  RawPosting.new ["Assets"] none AmountSource.Inferred none

/-! ## Claims about the balance engine -/

/-- C1 counterexample: at `[$1e36, $1, $-1e36, $-1]` every posting has a
provided amount and every symbol's *exact*-decimal sum is zero, yet the
engine classifies the transaction `Unbalanced`: its d128 accumulation
rounds `1e36 + 1` back to `1e36` (34 significant digits, round half even),
so after the remaining postings a residual `$-1` survives.  The original
claim's "exact-decimal sum is exactly zero" is therefore not the engine's
criterion. -/
theorem claim_C1_counterexample :
    (∀ p ∈ exPostingsPrecision, p.amount.isSome) ∧
    (∀ k ∈ symbolTexts exPostingsPrecision,
      (exactSymbolSum exPostingsPrecision k).isZero = true) ∧
    ensure_balanced exPostingsPrecision =
      .Unbalanced [("$", Amount.new (D128.num ⟨-1, 0⟩) exDollar exRoLeft)] := by
  refine ⟨by decide, by decide, by rfl⟩

/-- C1 (amended): for every transaction whose postings all have a provided
amount, the balance engine classifies the transaction as `Balanced` if and
only if, for every symbol text occurring among the postings, the
decimal128 accumulation of that symbol's quantities (each addition rounded
to 34 significant digits, exactly as `d128` addition rounds — `symbolSum`)
is zero; in the `Balanced` case the postings are returned unchanged. -/
theorem claim_C1_balanced_iff_zero_sums (ps : List RawPosting)
    (hall : ∀ p ∈ ps, p.amount.isSome) :
    (ensure_balanced ps = .Balanced ps ↔
      ∀ k ∈ symbolTexts ps, (symbolSum ps k).eqZero = true) ∧
    (∀ bs, ensure_balanced ps = .Balanced bs → bs = ps) := by
  have hm0 : missingOf ps = 0 := by
    rw [missingOf_eq, numMissing, List.length_eq_zero, List.filter_eq_nil]
    intro p hp
    have := hall p hp
    cases hpa : p.amount <;> simp_all
  rw [ensure_balanced_no_missing ps hm0]
  by_cases hz : (unbalancedOf ps).length = 0
  · rw [if_pos hz]
    refine ⟨⟨fun _ => ?_, fun _ => rfl⟩, fun bs hbs => ?_⟩
    · exact (unbalancedOf_eq_nil_iff ps).mp (List.length_eq_zero.mp hz)
    · injection hbs with hbs
      exact hbs.symm
  · rw [if_neg hz]
    refine ⟨⟨fun h => absurd h (by simp), fun h => ?_⟩, fun bs hbs => absurd hbs (by simp)⟩
    exact absurd (List.length_eq_zero.mpr ((unbalancedOf_eq_nil_iff ps).mpr h)) hz

/-- C1 witness: the spec's balanced example is all-provided and is classified
`Balanced` with the postings unchanged. -/
theorem claim_C1_witness :
    (∀ p ∈ exPostingsBal, p.amount.isSome) ∧
      ensure_balanced exPostingsBal = .Balanced exPostingsBal :=
  ⟨by decide,
    ((claim_C1_balanced_iff_zero_sums exPostingsBal (by decide)).1).mpr (by decide)⟩

/-- C2 counterexample: at `[$1e36, $1, <missing>]` there is exactly one
missing amount and one unbalanced symbol, and the engine infers `$-1e36` —
`d128!(-1)` times its *rounded* accumulated sum (`1e36 + 1` rounds to
`1e36` at 34 significant digits) — not the exact negation
`-(10 ^ 36 + 1)` of the exact-decimal sum that the original claim
describes. -/
theorem claim_C2_counterexample :
    numMissing exPostingsPrecisionInfer = 1 ∧
    ensure_balanced exPostingsPrecisionInfer = .Balanced
      [exProvided ((10 : Int) ^ 33) 3 exDollar exRoLeft,
       exProvided 1 0 exDollar exRoLeft,
       RawPosting.new []
         (some (Amount.new (D128.num ⟨-(10 : Int) ^ 33, 3⟩) exDollar exRoLeft))
         AmountSource.Inferred none] ∧
    Dec.eqv ⟨-(10 : Int) ^ 33, 3⟩
      (Dec.neg (exactSymbolSum exPostingsPrecisionInfer "$")) = false := by
  refine ⟨by decide, by rfl, by decide⟩

/-- C2 (amended): for every list of raw postings in which exactly one
posting (the one at index `i`) has no amount and exactly one symbol text
`k` has a non-zero d128-accumulated sum over the provided amounts, the
balance engine assigns to the missing posting an amount whose quantity is
`d128!(-1)` times that symbol's d128-accumulated (34-digit-rounded) sum,
whose symbol and render options are those of the first posting that used
that symbol text, and whose source is `AmountSource::Inferred`. -/
theorem claim_C2_inferred_amount (ps : List RawPosting) (i : Nat) (pi : RawPosting)
    (k : String)
    (h1 : numMissing ps = 1) (h2 : ps[i]? = some pi) (h3 : pi.amount = none)
    (hk : k ∈ symbolTexts ps)
    (hnz : (symbolSum ps k).eqZero = false)
    (huniq : ∀ k' ∈ symbolTexts ps, (symbolSum ps k').eqZero = false → k' = k) :
    ∃ a₀ bs, firstAmount ps k = some a₀ ∧ ensure_balanced ps = .Balanced bs ∧
      bs[i]? = some (RawPosting.new pi.sub_accounts
        (some (Amount.new ((D128.num Dec.negOne).mul (symbolSum ps k))
          a₀.symbol a₀.render_options))
        AmountSource.Inferred pi.comment) := by
  obtain ⟨a₀, bs, hf, heb, _, hbi⟩ := ensure_balanced_infers ps i pi k h1 h2 h3 hk hnz huniq
  exact ⟨a₀, bs, hf, heb, hbi⟩

/-- C2 witness: on the spec's inference example, the missing fourth posting
receives `"MUTF2394" 15.27` (`d128!(-1)` times the accumulated `-15.27`)
with the first `MUTF2394` posting's symbol and render options, tagged
`Inferred`. -/
theorem claim_C2_witness :
    numMissing exPostingsInfer = 1 ∧
      ∃ a₀ bs, firstAmount exPostingsInfer "MUTF2394" = some a₀ ∧
        ensure_balanced exPostingsInfer = .Balanced bs ∧
        bs[3]? = some (RawPosting.new exMissing.sub_accounts
          (some (Amount.new ((D128.num Dec.negOne).mul (symbolSum exPostingsInfer "MUTF2394"))
            a₀.symbol a₀.render_options))
          AmountSource.Inferred exMissing.comment) :=
  ⟨by decide,
    claim_C2_inferred_amount exPostingsInfer 3 exMissing "MUTF2394"
      (by decide) (by decide) (by decide) (by decide) (by decide) (by decide)⟩

/-- C3: the claim says that whenever the balance engine classifies a
transaction's postings as `Balanced` (or infers the single missing amount),
the lowering `RawTransaction::into_postings` succeeds and never crashes.
The code violates this: a transaction with a single posting that has no
amount is classified `Balanced` (zero unbalanced symbols) with the amount
still missing, and the lowering then panics on
`p.amount.expect("Encountered unexpected missing amount")`. -/
theorem claim_C3_balanced_lowering_panics :
    ensure_balanced [exSingleMissing] = .Balanced [exSingleMissing] ∧
      RawTransaction.into_postings ⟨exHeader, [exSingleMissing]⟩ = .panicked := by
  constructor <;> rfl

/-- C4: for every list of raw postings in which more than one posting has no
amount, the balance engine returns `MultipleAmountsMissing` carrying the
count of missing amounts, regardless of whether the provided amounts sum to
zero. -/
theorem claim_C4_multiple_missing (ps : List RawPosting)
    (h : 1 < numMissing ps) :
    ensure_balanced ps = .MultipleAmountsMissing (numMissing ps) := by
  have hm : missingOf ps = numMissing ps := missingOf_eq ps
  have := ensure_balanced_multi ps (by omega)
  rwa [hm] at this

/-- C4 witness: four postings, all missing amounts, yield
`MultipleAmountsMissing(4)`. -/
theorem claim_C4_witness :
    1 < numMissing exPostingsAllMissing ∧
      ensure_balanced exPostingsAllMissing = .MultipleAmountsMissing 4 :=
  ⟨by decide, (claim_C4_multiple_missing exPostingsAllMissing (by decide)).trans (by decide)⟩

/-- C10: when the balance engine infers the single missing amount — the
hypotheses state the engine's own branch condition: exactly one missing
amount and exactly one symbol whose d128-accumulated (34-digit-rounded)
sum `symbolSum` is non-zero — every posting other than the one at the
missing index is returned completely unchanged, and the posting at the
missing index keeps its original account segments and comment: only its
amount and source tag are set by the engine. -/
theorem claim_C10_frame (ps : List RawPosting) (i : Nat) (pi : RawPosting)
    (k : String)
    (h1 : numMissing ps = 1) (h2 : ps[i]? = some pi) (h3 : pi.amount = none)
    (hk : k ∈ symbolTexts ps)
    (hnz : (symbolSum ps k).eqZero = false)
    (huniq : ∀ k' ∈ symbolTexts ps, (symbolSum ps k').eqZero = false → k' = k) :
    ∃ bs, ensure_balanced ps = .Balanced bs ∧
      (∀ j, j ≠ i → bs[j]? = ps[j]?) ∧
      ∃ p', bs[i]? = some p' ∧ p'.sub_accounts = pi.sub_accounts ∧
        p'.comment = pi.comment ∧ p'.amount_source = AmountSource.Inferred := by
  obtain ⟨a₀, bs, _, heb, hframe, hbi⟩ := ensure_balanced_infers ps i pi k h1 h2 h3 hk hnz huniq
  exact ⟨bs, heb, hframe, _, hbi, rfl, rfl, rfl⟩

/-- C10 witness: on the spec's inference example, the three provided postings
come back unchanged at their indices, and the missing posting keeps its
segments and comment. -/
theorem claim_C10_witness :
    numMissing exPostingsInfer = 1 ∧
      ∃ bs, ensure_balanced exPostingsInfer = .Balanced bs ∧
        (∀ j, j ≠ 3 → bs[j]? = exPostingsInfer[j]?) ∧
        ∃ p', bs[3]? = some p' ∧ p'.sub_accounts = exMissing.sub_accounts ∧
          p'.comment = exMissing.comment ∧ p'.amount_source = AmountSource.Inferred :=
  ⟨by decide,
    claim_C10_frame exPostingsInfer 3 exMissing "MUTF2394"
      (by decide) (by decide) (by decide) (by decide) (by decide) (by decide)⟩

/-- C9 counterexample: for the account path `["", "x"]` (a non-empty path),
the second lineage entry computed by `build_account_lineage` is `"x"`, while
the first two segments joined with `:` give `":x"` — so the claim's formula
fails on paths whose first segment is the empty string (the `account.len() == 0`
test in the source skips the separator again after an empty first segment). -/
theorem claim_C9_counterexample :
    (build_account_lineage ["", "x"])[1]? = some "x" ∧
      joinColon (["", "x"].take 2) = ":x" ∧ ("x" : String) ≠ ":x" := by
  refine ⟨rfl, rfl, by decide⟩

/-- C9 (amended): for every account path whose first segment is non-empty —
in particular every parser-produced path, since parsed sub-accounts are
non-empty — the computed account lineage has exactly as many entries as the
path has segments, and the entry at index `j` equals the first `j + 1`
segments joined with `:`. -/
theorem claim_C9_amended (s0 : String) (rest : List String) (h0 : s0 ≠ "") :
    (build_account_lineage (s0 :: rest)).length = (s0 :: rest).length ∧
    ∀ j, j < (s0 :: rest).length →
      (build_account_lineage (s0 :: rest))[j]? = some (joinColon ((s0 :: rest).take (j + 1))) := by
  constructor
  · rw [build_account_lineage]; exact lineageGo_length _ _
  · intro j hj
    rw [build_account_lineage_cons]
    cases j with
    | zero => simp [joinColon, List.take]
    | succ j' =>
      have hj' : j' < rest.length := by simpa using hj
      rw [List.getElem?_cons_succ, lineageGo_getElem_ne rest s0 h0 j' hj']
      cases rest with
      | nil => simp at hj'
      | cons r t =>
        simp only [List.take, joinColon, Option.some.injEq]

/-! ## Parser lemmas -/

theorem manyAux_satisfy (f : Char → Bool) :
    ∀ (fuel : Nat) (s : List Char), s.length < fuel →
      manyAux (psatisfy f) fuel s =
        .ok (!(s.takeWhile f).isEmpty) (s.takeWhile f) (s.dropWhile f) := by
  intro fuel
  induction fuel with
  | zero => intro s hs; omega
  | succ fuel ih =>
    intro s hs
    cases s with
    | nil => rfl
    | cons c rest =>
      by_cases hc : f c
      · have hr := ih rest (by simp at hs; omega)
        simp [manyAux, psatisfy, hc, hr]
      · simp [manyAux, psatisfy, hc]

theorem pmany1_satisfy_ok (f : Char → Bool) (s : List Char) (b : Bool) (cs : List Char)
    (rest : List Char) (h : pmany1 (psatisfy f) s = .ok b cs rest) :
    cs ≠ [] ∧ ∀ ch ∈ cs, f ch := by
  cases s with
  | nil => simp [pmany1, pbind, psatisfy, pmap, ppure] at h
  | cons c tail =>
    by_cases hc : f c
    · have hr := manyAux_satisfy f (tail.length + 1) tail (by omega)
      simp only [pmany1, pbind, psatisfy, if_pos hc, pmap, ppure, pmany, hr] at h
      simp only [PResult.ok.injEq] at h
      obtain ⟨_, h2, _⟩ := h
      subst h2
      refine ⟨by simp, ?_⟩
      intro ch hch
      rcases List.mem_cons.mp hch with rfl | hch
      · exact hc
      · exact List.mem_takeWhile_imp hch
    · simp [pmany1, pbind, psatisfy, hc] at h

/-- Soundness of the combine-based `unquoted_symbol` (from
`src/parser/parse.rs`): whenever it succeeds, the symbol text is non-empty
and contains none of the excluded characters (digits, space, tab, `-`, `;`,
`"`, CR, LF) — this half of claim C8 does hold; its chomp counterpart below
does not. -/
theorem unquoted_symbol_parse_rs_sound (s : List Char) (b : Bool) (sym : Symbol)
    (rest : List Char) (h : unquoted_symbolP s = .ok b sym rest) :
    sym.value.data ≠ [] ∧ ∀ ch ∈ sym.value.data, ch ∉ unquotedForbidden := by
  unfold unquoted_symbolP pmap pbind ppure at h
  cases hin : pmany1 (psatisfy fun c => unquotedForbidden.all fun s => s != c) s with
  | ok b' cs rest' =>
    rw [hin] at h
    simp only [PResult.ok.injEq] at h
    obtain ⟨_, h2, _⟩ := h
    obtain ⟨hne, hall⟩ := pmany1_satisfy_ok _ s b' cs rest' hin
    constructor
    · rw [← h2]; simpa using hne
    · intro ch hch
      rw [← h2] at hch
      have := hall ch (by simpa using hch)
      intro hmem
      have := List.all_eq_true.mp this ch hmem
      simp at this
  | err c => rw [hin] at h; exact absurd h (by simp)
  | panicked => rw [hin] at h; exact absurd h (by simp)

theorem ccount_cdigit_ok (n : Nat) :
    ∀ (s vs rest : List Char), ccount n cdigit s = .ok vs rest →
      s = vs ++ rest ∧ vs.length = n ∧ ∀ c ∈ vs, c.isDigit := by
  induction n with
  | zero =>
    intro s vs rest h
    simp only [ccount, CResult.ok.injEq] at h
    obtain ⟨rfl, rfl⟩ := h
    simp
  | succ n ih =>
    intro s vs rest h
    cases s with
    | nil => simp [ccount, cbind, cdigit] at h
    | cons c s1 =>
      by_cases hc : c.isDigit
      · simp only [ccount, cbind, cdigit, if_pos hc, cmap] at h
        cases hrec : ccount n cdigit s1 with
        | ok vs1 rest1 =>
          rw [hrec] at h
          simp only [CResult.ok.injEq] at h
          obtain ⟨rfl, rfl⟩ := h
          obtain ⟨hs, hlen, hdig⟩ := ih s1 vs1 rest1 hrec
          refine ⟨by simp [hs], by simp [hlen], ?_⟩
          intro x hx
          rcases List.mem_cons.mp hx with rfl | hx
          · exact hc
          · exact hdig x hx
        | fail => rw [hrec] at h; simp at h
        | panicked => rw [hrec] at h; simp at h
      · simp [ccount, cbind, cdigit, hc] at h

/-- The chomp `year` parser consumes exactly four digits. -/
theorem chomp_year_four_digits (s : List Char) (y : Int) (rest : List Char)
    (h : chomp_year s = .ok y rest) :
    ∃ ds, s = ds ++ rest ∧ ds.length = 4 ∧ ∀ c ∈ ds, c.isDigit := by
  unfold chomp_year cmap at h
  cases hrec : ccount 4 cdigit s with
  | ok vs rest1 =>
    rw [hrec] at h
    simp only [CResult.ok.injEq] at h
    obtain ⟨hy, hrest⟩ := h
    subst hrest
    obtain ⟨hs, hlen, hdig⟩ := ccount_cdigit_ok 4 s vs _ hrec
    exact ⟨vs, hs, hlen, hdig⟩
  | fail => rw [hrec] at h; exact absurd h (by simp)
  | panicked => rw [hrec] at h; exact absurd h (by simp)

/-! ## Claims about the parsers -/

/-- C5: the claim says a malformed decimal literal such as `"1.2.3"` is a
quantity-parser failure, never a silent non-numeric value and never a
crash.  The code violates this: the character layer accepts any run of
digits, commas and dots, and `d128::from_str("1.2.3")` converts to a quiet
NaN which the `.unwrap()` passes through — the quantity parser *succeeds*,
consuming the whole input and producing a non-numeric value.  (Under a
`from_str` that returned `Err` instead, the `unwrap` would panic; under
neither reading is a parse failure returned.) -/
theorem claim_C5_malformed_quantity_not_rejected :
    quantityP "1.2.3".data = .ok true D128.nan [] ∧
      d128_from_str "1.2.3" = .nan ∧ D128.nan.isNum = false :=
  ⟨rfl, rfl, rfl⟩

/-- C6 counterexample: the claim says parsing a date whose year part is not
exactly four digits fails, naming `"15-10-17"`; but the combine-based
`date` parser of `src/parser/parse.rs` (the one the ledger grammar uses)
accepts it, consuming the whole input and producing the year 15. -/
theorem claim_C6_counterexample :
    dateP "15-10-17".data = .ok true ⟨15, 10, 17⟩ [] := rfl

/-- C6 (amended): the chomp-based date parser accepts exactly a 4-digit
year, `-`, 2-digit month, `-`, 2-digit day (so `"15-10-17"` fails there),
while the combine-based date parser used for ledger parsing accepts any
non-empty run of digits as the year, so `"15-10-17"` and `"201615-10-17"`
both parse successfully; neither parser performs month/day range
validation itself — an out-of-range date such as `2016-13-40` passes the
grammar of both and reaches the chrono constructor, which panics rather
than returning a parse failure. -/
theorem claim_C6_amended :
    (∀ (s : List Char) (y : Int) (rest : List Char), chomp_year s = .ok y rest →
      ∃ ds, s = ds ++ rest ∧ ds.length = 4 ∧ ∀ c ∈ ds, c.isDigit) ∧
    chomp_date "15-10-17".data = .fail ∧
    chomp_date "2016-02-07".data = .ok ⟨2016, 2, 7⟩ [] ∧
    dateP "15-10-17".data = .ok true ⟨15, 10, 17⟩ [] ∧
    dateP "201615-10-17".data = .ok true ⟨201615, 10, 17⟩ [] ∧
    dateP "2016-13-40".data = .panicked ∧
    chomp_date "2016-13-40".data = .panicked :=
  ⟨chomp_year_four_digits, rfl, rfl, rfl, rfl, rfl, rfl⟩

/-- C6 witness: the 4-digit-year property of the chomp parser, instantiated
at `"2016-"`. -/
theorem claim_C6_witness :
    chomp_year "2016-".data = .ok 2016 ['-'] ∧
      ∃ ds, "2016-".data = ds ++ ['-'] ∧ ds.length = 4 ∧ ∀ c ∈ ds, c.isDigit :=
  ⟨rfl, claim_C6_amended.1 "2016-".data 2016 ['-'] rfl⟩

/-- C7: the claim says `parse_ledger` returns a `Result`, surfacing any
structural parse failure as a typed, positioned error value with no partial
ledger, never terminating the process.  The code violates this: on a parse
error it executes `panic!("{}", err)` (its own TODO comment admits a result
should be returned instead) — shown here on a header line with no postings
— and on trailing garbage its `Ok((tree, _))` arm silently discards the
unconsumed input, returning a partial (here: empty) ledger with no error. -/
theorem claim_C7_parse_ledger_panics :
    parse_ledger "2016-06-07 * Payee\n" = .panicked ∧
      parse_ledger "garbage" = .trees [] :=
  ⟨rfl, rfl⟩

/-- C8: the claim says the unquoted-symbol parser rejects CR and LF.  The
chomp-based `unquoted_symbol` of `src/parser/chomp.rs` violates this: its
`is_newline_char` tests `c == b'\r' && c == b'\n'`, a conjunction that no
byte satisfies, so the newline exclusion is vacuous and a lone CR (or LF)
is accepted as a symbol.  (The combine-based parser in
`src/parser/parse.rs` does satisfy the claim — see
`unquoted_symbol_parse_rs_sound`.) -/
theorem claim_C8_chomp_unquoted_accepts_cr :
    chomp_unquoted_symbol ['\r'] = .ok (Symbol.new "\r" QuoteOption.Unquoted) [] ∧
      chomp_unquoted_symbol ['\n'] = .ok (Symbol.new "\n" QuoteOption.Unquoted) [] ∧
      ∀ c, is_newline_char c = false := by
  refine ⟨rfl, rfl, fun c => ?_⟩
  by_cases h : c = '\r'
  · subst h; rfl
  · simp [is_newline_char, h]

/-- C8 witness: the vacuous newline predicate, instantiated at CR. -/
theorem claim_C8_witness : is_newline_char '\r' = false :=
  claim_C8_chomp_unquoted_accepts_cr.2.2 '\r'

/-- C9 witness: the path `["Assets", "Savings", "Bank"]` yields a lineage of
three entries whose last entry is `Assets:Savings:Bank`. -/
theorem claim_C9_witness :
    ("Assets" : String) ≠ "" ∧
      (build_account_lineage ["Assets", "Savings", "Bank"])[2]? =
        some (joinColon (["Assets", "Savings", "Bank"].take 3)) :=
  ⟨by decide, (claim_C9_amended "Assets" ["Savings", "Bank"] (by decide)).2 2 (by decide)⟩

end WealthPulse
